import Mathlib

/-!
Singly linked list library (`sllist.c`)

A shallow embedding of the list operations of `sllist.c` and proofs of their
contracts.

Data model.

A `node_t*` is modelled by the sequence of `data` fields of the nodes reachable
from it through `next`, head first; `NULL` is `[]`.  This is the abstraction the
library itself maintains: its lists are acyclic and linear, and no node is
shared between two lists.  A function that receives `node_t** head` and
rewrites `*head` becomes a function from the old `*head` to the new one (paired
with the `int` it returns, when it returns one).

Reading or writing a field through a `NULL` pointer has no defined behaviour in
C.  Wherever the code performs such an access without a test that visibly
guards it, the model makes the access explicit and answers `Fault.nullDeref`.

Loops are recursive functions that follow the C loop step by step.  A loop that
relinks nodes in place returns the chain hanging on the pointer it walks once
the loop is over, which is what the caller then sees through `*head`.

`malloc` is an input of the model (`malloc_ok`), `fopen` likewise.  The C
library calls `fprintf(f, "%d\n", x)` and `fscanf(f, "%d", &x)` are modelled on
character lists after the C standard.
-/

namespace SLList

/-- Ways in which a run of the C code fails to return normally. -/
inductive Fault where
  /-- A field of a `NULL` node pointer is read or written. -/
  | nullDeref
  /-- An array cell outside the allocated block is read or written. -/
  | badIndex
  /-- A signed computation leaves the range of `int`. -/
  | intOverflow
  /-- The step budget given to a loop ran out before the loop ended. -/
  | noFuel
  deriving DecidableEq, Repr

deriving instance DecidableEq for Except

/-- Least value of `int`. -/
def INT_MIN : Int := -2147483648

/-- Greatest value of `int`. -/
def INT_MAX : Int := 2147483647

/-- Every value of the list is a value of `int`. -/
def InIntRange (l : List Int) : Prop := ∀ x ∈ l, INT_MIN ≤ x ∧ x ≤ INT_MAX

/-! ## Mutation operations -/

/-- The C function `int push(node_t** head, int data)`: returns the `int` result and the new `*head`. -/
def push (malloc_ok : Bool) (head : List Int) (data : Int) : Int × List Int :=
  if malloc_ok = false then
    (1, head)                          -- new_node == NULL: return 1
  else
    match head with
    | [] => (0, [data])                -- *head = new_node; new_node->next = NULL
    | d :: nxt => (0, data :: d :: nxt) -- new_node->next = *head; *head = new_node

/-- The walk of `enqueue`: `while (ptr->next != NULL) ptr = ptr->next;` followed by
`ptr->next = new_node; new_node->next = NULL`.  The node `ptr` holds `d` and
`ptr->next` is the second argument; the result is the chain that starts at `ptr`. -/
def enqueue.walk (data : Int) (d : Int) : List Int → List Int
  | [] => [d, data]
  | e :: nxt => d :: enqueue.walk data e nxt

/-- The C function `int enqueue(node_t** head, int data)`. -/
def enqueue (malloc_ok : Bool) (head : List Int) (data : Int) : Int × List Int :=
  match head with
  | [] => (0, (push malloc_ok [] data).2)   -- push(head, data); return 0;
  | d :: nxt =>
    if malloc_ok = false then
      (1, d :: nxt)                         -- new_node == NULL: return 1
    else
      (0, enqueue.walk data d nxt)

/-- The C function `int pop(node_t** head)`. -/
def pop (head : List Int) : Int × List Int :=
  match head with
  | [] => (1, [])                      -- "Cannot pop empty list": return 1
  | _ :: nxt => (0, nxt)               -- *head = (*head)->next; free(delete)

/-- Walk of `removeTail` on a list of two or more nodes:
`while (ptr->next->next != NULL) ptr = ptr->next;` followed by
`free(ptr->next->next); ptr->next = NULL;`.  The node `ptr` holds `d`, the node
`ptr->next` holds `e`, and `ptr->next->next` is the last argument; the result is
the chain that starts at the node `ptr` pointed to on entry.  (When the walk
ends `ptr->next->next` is `NULL`, so the `free` releases nothing.) -/
def removeTail.walk (d e : Int) : List Int → List Int
  | [] => [d]                          -- ptr->next->next == NULL: ptr->next = NULL
  | f :: nxt => d :: removeTail.walk e f nxt   -- ptr = ptr->next

/-- The C function `int removeTail(node_t** head)`. -/
def removeTail (head : List Int) : Int × List Int :=
  match head with
  | [] => (1, [])                      -- "Cannot remove element from empty list": return 1
  | [_] => (0, [])                     -- ptr->next == NULL: free(ptr); *head = NULL
  | d :: e :: nxt => (0, removeTail.walk d e nxt)

/-- Second loop of `deleteMatch`:
`while (ptr->next != NULL) { if (ptr->next->data == value) unlink ptr->next; else ptr = ptr->next; }`.
The node `ptr` holds `d`, `ptr->next` is the last argument; the result is the
chain that starts at the node `ptr` pointed to on entry. -/
def deleteMatch.tailLoop (value : Int) (d : Int) : List Int → List Int
  | [] => [d]
  | e :: nxt =>
    if e = value then deleteMatch.tailLoop value d nxt   -- ptr->next = ptr->next->next
    else d :: deleteMatch.tailLoop value e nxt           -- ptr = ptr->next

/-- First loop of `deleteMatch`, `while (ptr->data == value) { ... }`, together with
what follows it (`*head = ptr;` and the second loop).  The argument is `ptr`; the
result is the final `*head`. -/
def deleteMatch.headLoop (value : Int) : List Int → Except Fault (List Int)
  | [] => .error .nullDeref            -- ptr->data with ptr == NULL
  | d :: nxt =>
    if d = value then
      -- delete = ptr; ptr = ptr->next; free(delete);
      match nxt with
      | [] => .ok []                   -- if (ptr == NULL) { *head = NULL; return; }
      | _ :: _ => deleteMatch.headLoop value nxt
    else
      .ok (deleteMatch.tailLoop value d nxt)   -- *head = ptr; second loop

/-- The C function `void deleteMatch(node_t** head, int value)`.  The test `*head == NULL` only
prints a message; control then reaches `ptr = *head` and the first loop. -/
def deleteMatch (head : List Int) (value : Int) : Except Fault (List Int) :=
  deleteMatch.headLoop value head

/-- Inner loop of `deleteDuplicates`:
`while (inner->next != NULL) { if (outer->data == inner->next->data) unlink inner->next; else inner = inner->next; }`.
`od` is `outer->data`, the node `inner` holds `d`, `inner->next` is the last
argument; the result is the chain that starts at the node `inner` pointed to on entry. -/
def deleteDuplicates.innerLoop (od : Int) (d : Int) : List Int → List Int
  | [] => [d]
  | e :: nxt =>
    if od = e then deleteDuplicates.innerLoop od d nxt   -- inner->next = inner->next->next
    else d :: deleteDuplicates.innerLoop od e nxt        -- inner = inner->next

/-- The inner loop never lengthens the chain it works on. -/
theorem deleteDuplicates_innerLoop_length (od d : Int) (l : List Int) :
    (deleteDuplicates.innerLoop od d l).length ≤ l.length + 1 := by
  induction l generalizing d with
  | nil => simp [deleteDuplicates.innerLoop]
  | cons e nxt ih =>
    unfold deleteDuplicates.innerLoop
    split
    · exact Nat.le_succ_of_le (ih d)
    · simpa using ih e

/-- Outer loop of `deleteDuplicates`:
`while (outer != NULL && outer->next != NULL) { inner = outer; <inner loop>; outer = outer->next; }`.
The argument is `outer`; the result is the chain that starts at the node `outer`
pointed to on entry. -/
def deleteDuplicates.outerLoop (outer : List Int) : List Int :=
  match outer with
  | [] => []                           -- outer == NULL
  | [d] => [d]                         -- outer->next == NULL
  | d :: e :: nxt =>
    -- inner = outer; the inner loop rewrites the chain at outer; outer = outer->next
    d :: deleteDuplicates.outerLoop (deleteDuplicates.innerLoop d d (e :: nxt)).tail
termination_by outer.length
decreasing_by
  have h := deleteDuplicates_innerLoop_length d d (e :: nxt)
  simp only [List.length_tail, List.length_cons] at h ⊢
  omega

/-- The C function `void deleteDuplicates(node_t** head)`.  `head` is the address of the caller's
list handle, so `!head` is false; `(*head)->next` is then read without a test of
`*head`. -/
def deleteDuplicates (head : List Int) : Except Fault (List Int) :=
  match head with
  | [] => .error .nullDeref            -- (*head)->next with *head == NULL
  | [d] => .ok [d]                     -- !(*head)->next: return
  | d :: e :: nxt => .ok (deleteDuplicates.outerLoop (d :: e :: nxt))

/-- Loop of `reverseList`:
`while (ptr) { *head = ptr->next; ptr->next = prv; prv = ptr; ptr = *head; }`.
Arguments are `ptr` and `prv`; the result is `prv` when the loop ends. -/
def reverseList.loop : List Int → List Int → List Int
  | [], prv => prv
  | d :: nxt, prv => reverseList.loop nxt (d :: prv)

/-- The C function `void reverseList(node_t** head)`. -/
def reverseList (head : List Int) : List Int :=
  match head with
  | [] => []                           -- !*head: return
  | [d] => [d]                         -- !(*head)->next: return
  | d :: e :: nxt => reverseList.loop (d :: e :: nxt) []   -- *head = prv

/-- The C function `void destroy(node_t** head)`: every node is freed and `*head` is `NULL`. -/
def destroy (_head : List Int) : List Int := []

/-! ## Sort engine -/

/-- Loop of `merge`, with the closing `tail->next = left ? left : right;`.
Arguments are `left` and `right`; the result is the chain hung on `tail->next`
for the node `tail` pointed to on entry. -/
def merge.loop (left right : List Int) : List Int :=
  match left, right with
  | l :: ls, r :: rs =>
    if l ≤ r then l :: merge.loop ls (r :: rs)     -- tail->next = left; left = left->next
    else r :: merge.loop (l :: ls) rs              -- tail->next = right; right = right->next
  | [], right => right                            -- left is NULL: tail->next = right
  | l :: ls, [] => l :: ls                        -- right is NULL: tail->next = left
termination_by left.length + right.length

/-- The C function `void merge(node_t** head, node_t* left, node_t* right)`: the result is the
new `*head`. -/
def merge (left right : List Int) : List Int :=
  match left, right with
  | [], right => right                            -- !left: *head = right
  | l :: ls, [] => l :: ls                        -- !right: *head = left
  | l :: ls, r :: rs =>
    if l ≤ r then l :: merge.loop ls (r :: rs)     -- *head = left; left = left->next
    else r :: merge.loop (l :: ls) rs              -- *head = right; right = right->next

/-- Loop of `splitList`:
`while (hare) { hare = hare->next; if (hare) { hare = hare->next; tortoise = tortoise->next; } }`.
`pre` holds the nodes in front of `tortoise`.  The result is `pre` and `tortoise`
when the loop ends. -/
def splitList.loop : List Int → List Int → List Int → Except Fault (List Int × List Int)
  | [], pre, tortoise => .ok (pre, tortoise)
  | _ :: hare1, pre, tortoise =>
    match hare1 with
    | [] => .ok (pre, tortoise)
    | _ :: hare2 =>
      match tortoise with
      | [] => .error .nullDeref                    -- tortoise->next with tortoise == NULL
      | t :: ts => splitList.loop hare2 (pre ++ [t]) ts

/-- The C function `void splitList(node_t* head, node_t** left, node_t** right)`: `left` and
`right` are the values of `*left` and `*right` on entry, the result is their
values on return. -/
def splitList (head left right : List Int) : Except Fault (List Int × List Int) :=
  match head with
  | [] => .ok (left, right)                        -- !head: return
  | [_] => .ok (left, right)                       -- !head->next: return
  | d :: e :: nxt =>
    match splitList.loop (e :: nxt) [] (d :: e :: nxt) with
    | .error f => .error f
    | .ok (pre, tortoise) =>
      match tortoise with
      | [] => .error .nullDeref                    -- tortoise->next with tortoise == NULL
      | t :: ts => .ok (pre ++ [t], ts)            -- *left = head; *right = tortoise->next; tortoise->next = NULL

/-- The tortoise stays inside the list: the loop cuts `pre ++ tortoise` where the
hare has made half its way. -/
theorem splitList_loop_eq (hare pre tortoise : List Int) (h : hare.length ≤ 2 * tortoise.length) :
    splitList.loop hare pre tortoise =
      .ok (pre ++ tortoise.take (hare.length / 2), tortoise.drop (hare.length / 2)) := by
  induction hare, pre, tortoise using splitList.loop.induct with
  | case1 pre tortoise => simp [splitList.loop]
  | case2 x pre tortoise => simp [splitList.loop]
  | case3 x pre y hare2 =>
    simp at h
  | case4 x pre y hare2 t ts ih =>
    have h2 : hare2.length ≤ 2 * ts.length := by
      simp only [List.length_cons] at h; omega
    have e : (hare2.length + 1 + 1) / 2 = hare2.length / 2 + 1 := by omega
    simp [splitList.loop, ih h2, e]

/-- On a list of two or more nodes `splitList` cuts behind node `(n - 1) / 2`,
counted from zero. -/
theorem splitList_eq (d e : Int) (nxt left right : List Int) :
    splitList (d :: e :: nxt) left right =
      .ok ((d :: e :: nxt).take ((nxt.length + 1) / 2 + 1),
           (d :: e :: nxt).drop ((nxt.length + 1) / 2 + 1)) := by
  have h : (e :: nxt).length ≤ 2 * (d :: e :: nxt).length := by
    simp only [List.length_cons]; omega
  have hk : (nxt.length + 1) / 2 < (d :: e :: nxt).length := by
    simp only [List.length_cons]; omega
  simp only [splitList, splitList_loop_eq _ _ _ h, List.nil_append, List.length_cons]
  rw [List.drop_eq_getElem_cons hk]
  simp only [List.take_succ, List.getElem?_eq_getElem hk, Option.toList]

/-- Both halves `splitList` hands to the recursive calls of `mergeSort` are
shorter than the list that was split. -/
theorem splitList_shorter (d e : Int) (nxt left right : List Int)
    (h : splitList (d :: e :: nxt) (d :: e :: nxt) (d :: e :: nxt) = .ok (left, right)) :
    left.length < (d :: e :: nxt).length ∧ right.length < (d :: e :: nxt).length := by
  rw [splitList_eq] at h
  injection h with h
  injection h with h1 h2
  subst h1 h2
  simp only [List.length_take, List.length_drop, List.length_cons]
  omega

set_option linter.unusedVariables false in
/-- The C function `void mergeSort(node_t** head)`: the result is the new `*head`. -/
def mergeSort (head : List Int) : Except Fault (List Int) :=
  match head with
  | [] => .ok []                                   -- !*head: return
  | [d] => .ok [d]                                 -- !(*head)->next: return
  | d :: e :: nxt =>
    -- left = *head; right = *head; splitList(*head, &left, &right);
    match h : splitList (d :: e :: nxt) (d :: e :: nxt) (d :: e :: nxt) with
    | .error f => .error f
    | .ok (left, right) =>
      match mergeSort left with                    -- mergeSort(&left)
      | .error f => .error f
      | .ok left1 =>
        match mergeSort right with                 -- mergeSort(&right)
        | .error f => .error f
        | .ok right1 => .ok (merge left1 right1)   -- merge(head, left, right)
termination_by head.length
decreasing_by
  · exact (splitList_shorter d e nxt left right h).1
  · exact (splitList_shorter d e nxt left right h).2

/-! ## Construction from an array -/

/-- Loop of `createfromArray`:
`for (int i = size - 1; i >= 0; i--) { if (push(&head, arr[i])) { destroy(&head); return NULL; } }`
followed by `return head`.  The counter argument is `i + 1`; `malloc_ok i` tells
whether the allocation made for `arr[i]` succeeds. -/
def createfromArray.loop (malloc_ok : Nat → Bool) (arr : List Int) :
    Nat → List Int → Except Fault (List Int)
  | 0, head => .ok head                            -- i < 0: return head
  | i + 1, head =>
    match arr[i]? with
    | none => .error .badIndex                     -- arr[i] outside the array
    | some v =>
      if (push (malloc_ok i) head v).1 ≠ 0 then
        .ok (destroy (push (malloc_ok i) head v).2)   -- destroy(&head); return NULL
      else
        createfromArray.loop malloc_ok arr i (push (malloc_ok i) head v).2

/-- The C function `node_t* createfromArray(int arr[], int size)`. -/
def createfromArray (malloc_ok : Nat → Bool) (arr : List Int) (size : Int) :
    Except Fault (List Int) :=
  if size = INT_MIN then .error .intOverflow       -- i = size - 1 below INT_MIN
  else createfromArray.loop malloc_ok arr size.toNat []   -- head = NULL; i = size - 1

/-! ## Persistence

The content of a file is a list of characters.  `fprintf(f, "%d\n", x)` and
`fscanf(f, "%d", &x)` belong to the C library; they are modelled after the C
standard (7.21.6.1 and 7.21.6.2). -/

/-- The character of the decimal digit `d`, for `d < 10`. -/
def digitChar (d : Nat) : Char := Char.ofNat (48 + d)

/-- Decimal numeral of a natural number, most significant digit first. -/
def natDec (n : Nat) : List Char :=
  if n < 10 then [digitChar n] else natDec (n / 10) ++ [digitChar (n % 10)]
termination_by n
decreasing_by omega

/-- The characters `fprintf(f, "%d", x)` writes. -/
def fmt_d (x : Int) : List Char :=
  if x < 0 then '-' :: natDec x.natAbs else natDec x.natAbs

/-- The C function `isspace` in the C locale: space, `\t`, `\n`, `\v`, `\f`, `\r`. -/
def isspace (c : Char) : Bool :=
  c.toNat = 32 || (9 ≤ c.toNat && c.toNat ≤ 13)

/-- The C function `isdigit`. -/
def isdigit (c : Char) : Bool :=
  48 ≤ c.toNat && c.toNat ≤ 57

/-- White space in front of the stream is read and dropped. -/
def skipSpace : List Char → List Char
  | [] => []
  | c :: cs => if isspace c = true then skipSpace cs else c :: cs

/-- The longest run of decimal digits in front of the stream is read; `acc` is
the value of the digits read so far.  Returns the value and what is left. -/
def scanDigits (acc : Nat) : List Char → Nat × List Char
  | [] => (acc, [])
  | c :: cs =>
    if isdigit c = true then scanDigits (acc * 10 + (c.toNat - 48)) cs
    else (acc, c :: cs)

/-- Conversion of an integer to `int` by reduction modulo `2 ^ 32`; the identity
on `INT_MIN .. INT_MAX`.  (The C standard leaves `fscanf` undefined when the
numeral does not fit; only values that fit are relied on below.) -/
def toInt32 (z : Int) : Int :=
  (z + 2147483648) % 4294967296 - 2147483648

/-- Outcome of one `fscanf(file, "%d", &x)`, with the stream as it is left. -/
inductive Scan where
  /-- Input failure: the stream ended before a numeral began; returns `EOF`. -/
  | eof
  /-- Matching failure: returns 0, nothing is stored, and the character that does
  not fit stays in front of the stream. -/
  | noMatch (rest : List Char)
  /-- One item converted and stored: returns 1. -/
  | item (value : Int) (rest : List Char)
  deriving DecidableEq, Repr

/-- The call `fscanf(file, "%d", &x)` on the stream `file`. -/
def fscanf_d (file : List Char) : Scan :=
  match skipSpace file with
  | [] => .eof
  | c :: cs =>
    if c = '-' then
      match cs with
      | [] => .eof
      | b :: bs =>
        if isdigit b = true then
          .item (toInt32 (-((scanDigits 0 (b :: bs)).1 : Int))) (scanDigits 0 (b :: bs)).2
        else .noMatch (b :: bs)
    else if c = '+' then
      match cs with
      | [] => .eof
      | b :: bs =>
        if isdigit b = true then
          .item (toInt32 ((scanDigits 0 (b :: bs)).1 : Int)) (scanDigits 0 (b :: bs)).2
        else .noMatch (b :: bs)
    else if isdigit c = true then
      .item (toInt32 ((scanDigits 0 (c :: cs)).1 : Int)) (scanDigits 0 (c :: cs)).2
    else .noMatch (c :: cs)

/-- Loop of `savetoFile`:
`while (head != NULL) { fprintf(output, "%d\n", head->data); head = head->next; }`.
The result is the text written. -/
def savetoFile.loop : List Int → List Char
  | [] => []
  | d :: nxt => fmt_d d ++ '\n' :: savetoFile.loop nxt

/-- The C function `void savetoFile(node_t* head, char* filename)`.  The result is the new content
of the file, or `none` when the file is not written. -/
def savetoFile (fopen_ok : Bool) (head : List Int) : Option (List Char) :=
  match head with
  | [] => none                                     -- "Empty list, could not save"
  | d :: nxt =>
    if fopen_ok = false then none                  -- output == NULL
    else some (savetoFile.loop (d :: nxt))

/-- First loop of `createfromFile`:
`while ((scan_return = fscanf(file, "%d", &temp)) != EOF) { if (scan_return != 1) continue; else size++; }`.
Each call of `fscanf` takes one unit of fuel.  The result is `size` when the loop ends. -/
def createfromFile.countLoop : Nat → List Char → Int → Except Fault Int
  | 0, _, _ => .error .noFuel
  | fuel + 1, file, size =>
    match fscanf_d file with
    | .eof => .ok size                             -- scan_return == EOF
    | .noMatch rest => createfromFile.countLoop fuel rest size   -- continue
    | .item _ rest =>
      if size = INT_MAX then .error .intOverflow   -- size++ at INT_MAX
      else createfromFile.countLoop fuel rest (size + 1)

/-- Second loop of `createfromFile`:
`while ((scan_return = fscanf(file, "%d", &arr[i])) != EOF) { if (scan_return != 1) continue; else i++; }`.
`arr` holds the cells written so far, so `i` is `arr.length`; `arr_ok` tells
whether `malloc(sizeof(int) * size)` returned a block.  The result is the cells
written when the loop ends. -/
def createfromFile.fillLoop (arr_ok : Bool) (size : Int) :
    Nat → List Char → List Int → Except Fault (List Int)
  | 0, _, _ => .error .noFuel
  | fuel + 1, file, arr =>
    match fscanf_d file with
    | .eof => .ok arr                              -- scan_return == EOF
    | .noMatch rest => createfromFile.fillLoop arr_ok size fuel rest arr   -- continue
    | .item v rest =>
      if arr_ok = false then .error .nullDeref     -- store through arr == NULL
      else if size ≤ (arr.length : Int) then .error .badIndex   -- arr[i] behind the block
      else createfromFile.fillLoop arr_ok size fuel rest (arr ++ [v])   -- arr[i] = v; i++

/-- The C function `node_t* createfromFile(char* input)`, where `file` is the content of the
file named `input`. -/
def createfromFile (fopen_ok : Bool) (file : List Char) (arr_ok : Bool)
    (malloc_ok : Nat → Bool) (fuel : Nat) : Except Fault (List Int) :=
  if fopen_ok = false then .ok []                  -- file == NULL: return NULL
  else
    match createfromFile.countLoop fuel file 0 with
    | .error f => .error f
    | .ok size =>
      -- rewind(file); arr = malloc(sizeof(int) * size); i = 0
      match createfromFile.fillLoop arr_ok size fuel file [] with
      | .error f => .error f
      | .ok arr => createfromArray malloc_ok arr size

/-! ## Traversal and query

The counters of these functions are of type `int`; a step that would take one
beyond `INT_MAX` is answered by `Fault.intOverflow`.  What `printf` writes to the
standard output is the result of the printing functions. -/

/-- Loop of `length`: `while (head != NULL) { head = head->next; i++; }`.
Arguments are `head` and `i`; the result is `i` when the loop ends. -/
def length.loop : List Int → Int → Except Fault Int
  | [], i => .ok i
  | _ :: nxt, i =>
    if i = INT_MAX then .error .intOverflow        -- i++ at INT_MAX
    else length.loop nxt (i + 1)

/-- The C function `int length(node_t* head)`. -/
def length (head : List Int) : Except Fault Int :=
  match head with
  | [] => .ok 0                                    -- head == NULL: return 0
  | d :: nxt => length.loop (d :: nxt) 0           -- i = 0; loop; return i

/-- Loop of `count`:
`while (head != NULL) { if (head->data == value) { i++; } head = head->next; }`.
Arguments are `head` and `i`; the result is `i` when the loop ends. -/
def count.loop (value : Int) : List Int → Int → Except Fault Int
  | [], i => .ok i
  | d :: nxt, i =>
    if d = value then
      if i = INT_MAX then .error .intOverflow      -- i++ at INT_MAX
      else count.loop value nxt (i + 1)
    else count.loop value nxt i

/-- The C function `int count(node_t* head, int value)`. -/
def count (head : List Int) (value : Int) : Except Fault Int :=
  match head with
  | [] => .ok (-1)                                 -- "Cannot use count function in empty list"
  | d :: nxt => count.loop value (d :: nxt) 0      -- i = 0; loop; return i

/-- The C function `int recursive_count(node_t* head, int value)`. -/
def recursive_count (head : List Int) (value : Int) : Except Fault Int :=
  match head with
  | [] => .ok 0                                    -- head == NULL: return 0
  | d :: nxt =>
    if d = value then
      match recursive_count nxt value with
      | .error f => .error f
      | .ok r =>
        if r = INT_MAX then .error .intOverflow    -- 1 + r above INT_MAX
        else .ok (1 + r)
    else recursive_count nxt value

/-- The C function `int recursive_length(node_t* head)`. -/
def recursive_length (head : List Int) : Except Fault Int :=
  match head with
  | [] => .ok 0                                    -- head == NULL: return 0
  | _ :: nxt =>
    match recursive_length nxt with
    | .error f => .error f
    | .ok r =>
      if r = INT_MAX then .error .intOverflow      -- 1 + r above INT_MAX
      else .ok (1 + r)

/-- Loop of `count_old`:
`while (ptr != NULL) { if (ptr->data == value) { i++; } ptr = ptr->next; }`.
Arguments are `ptr` and `i`; the result is `i` when the loop ends. -/
def count_old.loop (value : Int) : List Int → Int → Except Fault Int
  | [], i => .ok i
  | d :: nxt, i =>
    if d = value then
      if i = INT_MAX then .error .intOverflow      -- i++ at INT_MAX
      else count_old.loop value nxt (i + 1)
    else count_old.loop value nxt i

/-- The C function `int count_old(node_t** head, int value)`; the argument is `*head`. -/
def count_old (head : List Int) (value : Int) : Except Fault Int :=
  match head with
  | [] => .ok (-1)                                 -- "Cannot use count function in empty list"
  | d :: nxt => count_old.loop value (d :: nxt) 0  -- ptr = *head; i = 0; loop; return i

/-- Loop of `length_old`: `while (ptr != NULL) { ptr = ptr->next; i++; }`.
Arguments are `ptr` and `i`; the result is `i` when the loop ends. -/
def length_old.loop : List Int → Int → Except Fault Int
  | [], i => .ok i
  | _ :: nxt, i =>
    if i = INT_MAX then .error .intOverflow        -- i++ at INT_MAX
    else length_old.loop nxt (i + 1)

/-- The C function `int length_old(node_t** head)`; the argument is `*head`. -/
def length_old (head : List Int) : Except Fault Int :=
  match head with
  | [] => .ok 0                                    -- *head == NULL: return 0
  | d :: nxt => length_old.loop (d :: nxt) 0       -- ptr = *head; i = 0; loop; return i

/-- Loop of `printList`:
`while (head != NULL) { printf("-%d", head->data); head = head->next; }`.
The result is the text written. -/
def printList.loop : List Int → List Char
  | [] => []
  | d :: nxt => '-' :: fmt_d d ++ printList.loop nxt

/-- The C function `void printList(node_t* head)`: the result is the text written.
The function receives the head pointer by value and writes to no node. -/
def printList (head : List Int) : List Char :=
  match head with
  | [] => "Empty list".toList                      -- printf("Empty list"); return
  | d :: nxt => printList.loop (d :: nxt) ++ ['\n']   -- loop; printf("\n")

/-- The C function `void recursive_print(node_t* head)`: the result is the text written. -/
def recursive_print : List Int → List Char
  | [] => ['\n']                                   -- printf("\n")
  | d :: nxt => '-' :: fmt_d d ++ recursive_print nxt   -- printf("-%d", head->data); recurse

/-! ## Sequences of calls -/

/-- One call on a list handle, as in the statement on `length` after a sequence of
calls: `push` and `enqueue` with their argument and the outcome of their
allocation, `pop`, `removeTail`. -/
inductive Op where
  | push (malloc_ok : Bool) (data : Int)
  | enqueue (malloc_ok : Bool) (data : Int)
  | pop
  | removeTail
  deriving DecidableEq, Repr

/-- A list handle with the tally of the calls made on it: the insertions that
returned 0 and the removals that returned 0. -/
structure Tally where
  head : List Int
  inserted : Int
  removed : Int
  deriving DecidableEq, Repr

/-- The effect of one call: the list after it, and the tally advanced when the
call returned 0. -/
def Tally.step (t : Tally) : Op → Tally
  | .push malloc_ok data =>
    { head := (SLList.push malloc_ok t.head data).2,
      inserted := if (SLList.push malloc_ok t.head data).1 = 0 then t.inserted + 1 else t.inserted,
      removed := t.removed }
  | .enqueue malloc_ok data =>
    { head := (SLList.enqueue malloc_ok t.head data).2,
      inserted := if (SLList.enqueue malloc_ok t.head data).1 = 0 then t.inserted + 1 else t.inserted,
      removed := t.removed }
  | .pop =>
    { head := (SLList.pop t.head).2,
      inserted := t.inserted,
      removed := if (SLList.pop t.head).1 = 0 then t.removed + 1 else t.removed }
  | .removeTail =>
    { head := (SLList.removeTail t.head).2,
      inserted := t.inserted,
      removed := if (SLList.removeTail t.head).1 = 0 then t.removed + 1 else t.removed }

/-- A sequence of calls, first call first, started on the empty list. -/
def runOps (ops : List Op) : Tally :=
  ops.foldl Tally.step { head := [], inserted := 0, removed := 0 }

/-- No call of the sequence is an `enqueue` that meets the empty list with a
failing allocation; `t` is the state before the first call. -/
def NoFailedEnqueueOnEmpty (t : Tally) : List Op → Prop
  | [] => True
  | op :: ops =>
    ¬ (t.head = [] ∧ ∃ v, op = Op.enqueue false v) ∧ NoFailedEnqueueOnEmpty (t.step op) ops

/-! ## Reference definitions, written after the specification -/

/-- The specification of `deleteDuplicates` in its own words: going from head to
tail, a value is retained the first time it occurs and dropped every later
time.  `seen` holds the values met so far. -/
def firstOccurrences.go (seen : List Int) : List Int → List Int
  | [] => []
  | x :: xs =>
    if x ∈ seen then firstOccurrences.go seen xs
    else x :: firstOccurrences.go (seen ++ [x]) xs

/-- The first occurrence of every distinct value of `l`, in the order of `l`. -/
def firstOccurrences (l : List Int) : List Int := firstOccurrences.go [] l

/-! ## Lemmas on the loops -/

theorem enqueue_walk_eq (data d : Int) (l : List Int) :
    enqueue.walk data d l = d :: l ++ [data] := by
  induction l generalizing d with
  | nil => rfl
  | cons e nxt ih => simp [enqueue.walk, ih]

theorem reverseList_loop_eq (ptr prv : List Int) :
    reverseList.loop ptr prv = ptr.reverse ++ prv := by
  induction ptr generalizing prv with
  | nil => rfl
  | cons d nxt ih => simp [reverseList.loop, ih]

theorem reverseList_eq (l : List Int) : reverseList l = l.reverse := by
  match l with
  | [] => rfl
  | [_] => rfl
  | d :: e :: nxt => simp [reverseList, reverseList_loop_eq]

theorem deleteMatch_tailLoop_eq (value d : Int) (l : List Int) :
    deleteMatch.tailLoop value d l = d :: l.filter (fun x => decide (x ≠ value)) := by
  induction l generalizing d with
  | nil => rfl
  | cons e nxt ih =>
    by_cases h : e = value
    · simp [deleteMatch.tailLoop, h, ih]
    · simp [deleteMatch.tailLoop, h, ih]

theorem deleteMatch_headLoop_eq (value d : Int) (nxt : List Int) :
    deleteMatch.headLoop value (d :: nxt) =
      .ok ((d :: nxt).filter (fun x => decide (x ≠ value))) := by
  induction nxt generalizing d with
  | nil =>
    by_cases h : d = value
    · simp [deleteMatch.headLoop, h]
    · simp [deleteMatch.headLoop, deleteMatch.tailLoop, h]
  | cons e nxt ih =>
    by_cases h : d = value
    · have step : deleteMatch.headLoop value (d :: e :: nxt) =
          deleteMatch.headLoop value (e :: nxt) := by
        rw [deleteMatch.headLoop]; simp [h]
      rw [step, ih]; simp [h]
    · simp [deleteMatch.headLoop, h, deleteMatch_tailLoop_eq]

/-! ## Contracts of the mutation operations -/

/-- Claim C8.  A `push` whose allocation succeeds returns 0 and leaves `v` in front
of the old list, one node longer; a `push` whose allocation fails returns 1 and
leaves the list as it was. -/
theorem push_contract (l : List Int) (v : Int) :
    push true l v = (0, v :: l) ∧
    (push true l v).2.length = l.length + 1 ∧
    push false l v = (1, l) := by
  cases l <;> simp [push]

/-- Claim C9.  An `enqueue` whose allocation succeeds returns 0 and leaves the old
list followed by `v`; on the empty list the list it leaves is the one `push`
leaves, the single node `v`. -/
theorem enqueue_contract (l : List Int) (v : Int) :
    enqueue true l v = (0, l ++ [v]) ∧
    (∀ malloc_ok, (enqueue malloc_ok [] v).2 = (push malloc_ok [] v).2) ∧
    enqueue true [] v = (0, [v]) := by
  cases l <;> simp [enqueue, push, enqueue_walk_eq]

/-- Claim C10.  `pop` on a list with a first node returns 0 and leaves the nodes
behind it; on the empty list it returns 1 and the list stays empty. -/
theorem pop_contract (d : Int) (nxt : List Int) :
    pop (d :: nxt) = (0, nxt) ∧ pop [] = (1, []) :=
  ⟨rfl, rfl⟩

/-- Claim C4.  On a list with at least one node `deleteMatch` runs without reading
through a null pointer and leaves the nodes whose value differs from the target,
in their order; a list made of the target alone becomes empty. -/
theorem deleteMatch_contract (d value : Int) (nxt : List Int) (n : Nat) :
    deleteMatch (d :: nxt) value = .ok ((d :: nxt).filter (fun x => decide (x ≠ value))) ∧
    deleteMatch (List.replicate (n + 1) value) value = .ok [] ∧
    deleteMatch [2, 2, 1, 2, 3, 2] 2 = .ok [1, 3] := by
  refine ⟨deleteMatch_headLoop_eq value d nxt, ?_, by decide⟩
  rw [List.replicate_succ]
  unfold deleteMatch
  rw [deleteMatch_headLoop_eq]
  congr 1
  simp [List.filter_eq_nil_iff]

/-- Claim C5.  `reverseList` leaves the nodes in reversed order, the old last node
in front; the empty list and a list of one node are left as they are. -/
theorem reverseList_contract (l : List Int) (d : Int) :
    reverseList l = l.reverse ∧
    (reverseList l).head? = l.getLast? ∧
    reverseList [] = [] ∧
    reverseList [d] = [d] ∧
    reverseList [1, 3, 5, 8] = [8, 5, 3, 1] := by
  refine ⟨reverseList_eq l, ?_, rfl, rfl, rfl⟩
  rw [reverseList_eq, List.head?_reverse]

/-- Claim C6.  Reversing twice gives back the original sequence. -/
theorem reverseList_involution (l : List Int) : reverseList (reverseList l) = l := by
  rw [reverseList_eq, reverseList_eq, List.reverse_reverse]

/-! ## Duplicate removal -/

theorem deleteDuplicates_innerLoop_eq (od d : Int) (l : List Int) :
    deleteDuplicates.innerLoop od d l = d :: l.filter (fun x => decide (x ≠ od)) := by
  induction l generalizing d with
  | nil => rfl
  | cons e nxt ih =>
    by_cases h : od = e
    · subst h
      simp [deleteDuplicates.innerLoop, ih]
    · have h2 : ¬ e = od := fun c => h c.symm
      simp [deleteDuplicates.innerLoop, h, h2, ih]

/-- One turn of the outer loop: the node stays, the later nodes with its value go. -/
theorem deleteDuplicates_outerLoop_cons (d : Int) (l : List Int) :
    deleteDuplicates.outerLoop (d :: l) =
      d :: deleteDuplicates.outerLoop (l.filter (fun x => decide (x ≠ d))) := by
  cases l with
  | nil => simp [deleteDuplicates.outerLoop]
  | cons e nxt =>
    rw [deleteDuplicates.outerLoop, deleteDuplicates_innerLoop_eq]
    rfl

theorem deleteDuplicates_outerLoop_nil : deleteDuplicates.outerLoop [] = [] := by
  simp [deleteDuplicates.outerLoop]

/-- Facts on the outer loop, by induction on the length of the chain. -/
theorem deleteDuplicates_outerLoop_props (n : Nat) :
    ∀ l : List Int, l.length ≤ n →
      (deleteDuplicates.outerLoop l).Nodup ∧
      (deleteDuplicates.outerLoop l).Sublist l ∧
      (∀ x, x ∈ deleteDuplicates.outerLoop l ↔ x ∈ l) := by
  induction n with
  | zero =>
    intro l hl
    have : l = [] := List.length_eq_zero.mp (Nat.le_zero.mp hl)
    subst this
    simp [deleteDuplicates_outerLoop_nil]
  | succ n ih =>
    intro l hl
    cases l with
    | nil => simp [deleteDuplicates_outerLoop_nil]
    | cons d l =>
      have hlen : (l.filter (fun x => decide (x ≠ d))).length ≤ n := by
        have := List.length_filter_le (fun x => decide (x ≠ d)) l
        simp only [List.length_cons] at hl
        omega
      obtain ⟨hnd, hsub, hmem⟩ := ih _ hlen
      rw [deleteDuplicates_outerLoop_cons]
      refine ⟨?_, ?_, ?_⟩
      · refine List.nodup_cons.mpr ⟨?_, hnd⟩
        intro hd
        have := (hmem d).mp hd
        simp at this
      · exact (hsub.trans (List.filter_sublist l)).cons₂ d
      · intro x
        simp only [List.mem_cons, hmem, List.mem_filter, decide_eq_true_eq]
        by_cases hx : x = d
        · simp [hx]
        · simp [hx]

theorem firstOccurrences_go_eq (seen l : List Int) :
    firstOccurrences.go seen l =
      deleteDuplicates.outerLoop (l.filter (fun x => decide (x ∉ seen))) := by
  induction l generalizing seen with
  | nil => simp [firstOccurrences.go, deleteDuplicates_outerLoop_nil]
  | cons x xs ih =>
    by_cases h : x ∈ seen
    · simp [firstOccurrences.go, h, ih]
    · simp only [firstOccurrences.go, h, if_false, ih, List.filter_cons, not_false_eq_true,
        decide_True, if_true]
      rw [deleteDuplicates_outerLoop_cons, List.filter_filter]
      congr 2
      apply List.filter_congr
      intro y _
      simp [and_comm]

/-- Claim C3.  On a list with at least one node `deleteDuplicates` leaves the first
occurrence of every distinct value, in the original order: no value occurs twice
in the result, the result is a subsequence of the input holding exactly its
values, and it is no longer than the input. -/
theorem deleteDuplicates_contract (d : Int) (nxt : List Int) :
    ∃ r, deleteDuplicates (d :: nxt) = .ok r ∧
      r = firstOccurrences (d :: nxt) ∧
      r.Nodup ∧
      r.Sublist (d :: nxt) ∧
      (∀ x, x ∈ r ↔ x ∈ d :: nxt) ∧
      r.length ≤ (d :: nxt).length ∧
      deleteDuplicates [1, 2, 2, 3, 2] = .ok [1, 2, 3] := by
  have hr : deleteDuplicates (d :: nxt) = .ok (deleteDuplicates.outerLoop (d :: nxt)) := by
    cases nxt with
    | nil => simp [deleteDuplicates, deleteDuplicates.outerLoop]
    | cons e nxt => rfl
  obtain ⟨hnd, hsub, hmem⟩ := deleteDuplicates_outerLoop_props _ (d :: nxt) (Nat.le_refl _)
  refine ⟨_, hr, ?_, hnd, hsub, hmem, hsub.length_le, ?_⟩
  · simp [firstOccurrences, firstOccurrences_go_eq]
  · simp [deleteDuplicates, deleteDuplicates_outerLoop_cons, deleteDuplicates_outerLoop_nil]

/-! ## Merge sort -/

theorem merge_eq_loop (left right : List Int) : merge left right = merge.loop left right := by
  cases left with
  | nil => simp [merge, merge.loop]
  | cons l ls =>
    cases right with
    | nil => simp [merge, merge.loop]
    | cons r rs => rw [merge, merge.loop]

theorem merge_loop_perm (left right : List Int) :
    (merge.loop left right).Perm (left ++ right) := by
  induction left, right using merge.loop.induct with
  | case1 l ls r rs h ih =>
    rw [merge.loop]; simp only [h, if_true]
    exact ih.cons l
  | case2 l ls r rs h ih =>
    rw [merge.loop]; simp only [h, if_false]
    exact (ih.cons r).trans (List.perm_middle.symm)
  | case3 right => simp [merge.loop]
  | case4 l ls => simp [merge.loop]

theorem merge_loop_sorted (left right : List Int)
    (hl : left.Sorted (· ≤ ·)) (hr : right.Sorted (· ≤ ·)) :
    (merge.loop left right).Sorted (· ≤ ·) := by
  induction left, right using merge.loop.induct with
  | case1 l ls r rs h ih =>
    rw [merge.loop]; simp only [h, if_true]
    refine List.sorted_cons.mpr ⟨?_, ih hl.of_cons hr⟩
    intro b hb
    rcases List.mem_append.mp ((merge_loop_perm ls (r :: rs)).subset hb) with hb | hb
    · exact List.rel_of_sorted_cons hl b hb
    · rcases List.mem_cons.mp hb with hb | hb
      · exact hb ▸ h
      · exact le_trans h (List.rel_of_sorted_cons hr b hb)
  | case2 l ls r rs h ih =>
    rw [merge.loop]; simp only [h, if_false]
    have hrl : r ≤ l := le_of_lt (not_le.mp h)
    refine List.sorted_cons.mpr ⟨?_, ih hl hr.of_cons⟩
    intro b hb
    rcases List.mem_append.mp ((merge_loop_perm (l :: ls) rs).subset hb) with hb | hb
    · rcases List.mem_cons.mp hb with hb | hb
      · exact hb ▸ hrl
      · exact le_trans hrl (List.rel_of_sorted_cons hl b hb)
    · exact List.rel_of_sorted_cons hr b hb
  | case3 right => simpa [merge.loop] using hr
  | case4 l ls => simpa [merge.loop] using hl

/-- How `mergeSort` unfolds on a list of two or more nodes. -/
theorem mergeSort_cons_cons (d e : Int) (nxt left1 right1 : List Int)
    (hl : mergeSort ((d :: e :: nxt).take ((nxt.length + 1) / 2 + 1)) = .ok left1)
    (hr : mergeSort ((d :: e :: nxt).drop ((nxt.length + 1) / 2 + 1)) = .ok right1) :
    mergeSort (d :: e :: nxt) = .ok (merge left1 right1) := by
  rw [mergeSort]
  split
  · rename_i f heq
    rw [splitList_eq] at heq
    cases heq
  · rename_i left right heq
    rw [splitList_eq] at heq
    injection heq with heq
    injection heq with h1 h2
    subst h1 h2
    simp only [hl, hr]

/-- The function `mergeSort` returns, and what it returns is sorted and a rearrangement of its
input; by induction on the length of the list. -/
theorem mergeSort_spec (n : Nat) :
    ∀ l : List Int, l.length ≤ n →
      ∃ r, mergeSort l = .ok r ∧ r.Sorted (· ≤ ·) ∧ r.Perm l := by
  induction n with
  | zero =>
    intro l hl
    have : l = [] := List.length_eq_zero.mp (Nat.le_zero.mp hl)
    subst this
    exact ⟨[], by simp [mergeSort], List.sorted_nil, List.Perm.refl _⟩
  | succ n ih =>
    intro l hl
    match l, hl with
    | [], _ => exact ⟨[], by simp [mergeSort], List.sorted_nil, List.Perm.refl _⟩
    | [d], _ => exact ⟨[d], by simp [mergeSort], List.sorted_singleton d, List.Perm.refl _⟩
    | d :: e :: nxt, hl =>
      simp only [List.length_cons] at hl
      obtain ⟨a, ha, hsa, hpa⟩ := ih ((d :: e :: nxt).take ((nxt.length + 1) / 2 + 1)) (by
        simp only [List.length_take, List.length_cons]; omega)
      obtain ⟨b, hb, hsb, hpb⟩ := ih ((d :: e :: nxt).drop ((nxt.length + 1) / 2 + 1)) (by
        simp only [List.length_drop, List.length_cons]; omega)
      refine ⟨merge a b, mergeSort_cons_cons d e nxt a b ha hb, ?_, ?_⟩
      · rw [merge_eq_loop]; exact merge_loop_sorted a b hsa hsb
      · rw [merge_eq_loop]
        refine (merge_loop_perm a b).trans ?_
        refine (hpa.append hpb).trans ?_
        rw [List.take_append_drop]

/-- Claim C1.  For every list `mergeSort` returns a list whose values are in
non-decreasing order from head to tail and which is a permutation of the input,
hence of the same length. -/
theorem mergeSort_sorted_perm (l : List Int) :
    ∃ r, mergeSort l = .ok r ∧ r.Sorted (· ≤ ·) ∧ r.Perm l ∧ r.length = l.length := by
  obtain ⟨r, h, hs, hp⟩ := mergeSort_spec l.length l (Nat.le_refl _)
  exact ⟨r, h, hs, hp, hp.length_eq⟩

/-- A list in non-decreasing order comes back from `mergeSort` as it is. -/
theorem mergeSort_of_sorted (l : List Int) (h : l.Sorted (· ≤ ·)) : mergeSort l = .ok l := by
  obtain ⟨r, hr, hs, hp⟩ := mergeSort_spec l.length l (Nat.le_refl _)
  rw [hr, List.eq_of_perm_of_sorted hp hs h]

/-- Claim C2.  `mergeSort` is idempotent: sorting the result of a sort returns that
result again; a list already in non-decreasing order, a list of one repeated
value among them, is returned as it is. -/
theorem mergeSort_idempotent (l : List Int) (n : Nat) (v : Int) :
    (∃ r, mergeSort l = .ok r ∧ mergeSort r = .ok r) ∧
    (l.Sorted (· ≤ ·) → mergeSort l = .ok l) ∧
    mergeSort (List.replicate n v) = .ok (List.replicate n v) := by
  refine ⟨?_, mergeSort_of_sorted l, ?_⟩
  · obtain ⟨r, hr, hs, _⟩ := mergeSort_spec l.length l (Nat.le_refl _)
    exact ⟨r, hr, mergeSort_of_sorted r hs⟩
  · apply mergeSort_of_sorted
    simp [List.Sorted, List.pairwise_replicate]

/-- Claim C2 at `[1, 2, 2, 3]`, a list in non-decreasing order. -/
theorem mergeSort_idempotent_witness :
    [1, 2, 2, 3].Sorted (fun a b : Int => a ≤ b) ∧ mergeSort [1, 2, 2, 3] = .ok [1, 2, 2, 3] :=
  ⟨by decide, (mergeSort_idempotent [1, 2, 2, 3] 0 0).2.1 (by decide)⟩

/-! ## Persistence: saving and loading -/

theorem digitChar_facts (n : Nat) (h : n < 10) :
    isdigit (digitChar n) = true ∧ (digitChar n).toNat - 48 = n ∧
    isspace (digitChar n) = false ∧ digitChar n ≠ '-' ∧ digitChar n ≠ '+' := by
  interval_cases n <;> decide

theorem natDec_lt (n : Nat) (h : n < 10) : natDec n = [digitChar n] := by
  rw [natDec]; simp [h]

theorem natDec_ge (n : Nat) (h : ¬ n < 10) :
    natDec n = natDec (n / 10) ++ [digitChar (n % 10)] := by
  rw [natDec]; simp [h]

/-- A numeral begins with a digit. -/
theorem natDec_head (n : Nat) : ∃ c cs, natDec n = c :: cs ∧ isdigit c = true ∧
    isspace c = false ∧ c ≠ '-' ∧ c ≠ '+' := by
  induction n using Nat.strong_induction_on with
  | _ n ih =>
    by_cases h : n < 10
    · obtain ⟨h1, _, h3, h4, h5⟩ := digitChar_facts n h
      exact ⟨digitChar n, [], natDec_lt n h, h1, h3, h4, h5⟩
    · obtain ⟨c, cs, hc, hrest⟩ := ih (n / 10) (by omega)
      exact ⟨c, cs ++ [digitChar (n % 10)], by rw [natDec_ge n h, hc]; rfl, hrest⟩

/-- Reading back the digits of a numeral. -/
theorem scanDigits_natDec (n acc : Nat) (rest : List Char) :
    scanDigits acc (natDec n ++ rest) =
      scanDigits (acc * 10 ^ (natDec n).length + n) rest := by
  induction n using Nat.strong_induction_on generalizing acc rest with
  | _ n ih =>
    by_cases h : n < 10
    · obtain ⟨h1, h2, _⟩ := digitChar_facts n h
      simp [natDec_lt n h, scanDigits, h1, h2]
    · have hm : n % 10 < 10 := Nat.mod_lt _ (by omega)
      obtain ⟨h1, h2, _⟩ := digitChar_facts (n % 10) hm
      rw [natDec_ge n h, List.append_assoc, ih (n / 10) (by omega)]
      simp only [List.singleton_append, scanDigits, h1, if_true, h2, List.length_append,
        List.length_singleton, pow_succ]
      congr 1
      have := Nat.div_add_mod n 10
      ring_nf
      omega

theorem toInt32_of_range (x : Int) (h1 : INT_MIN ≤ x) (h2 : x ≤ INT_MAX) : toInt32 x = x := by
  unfold INT_MIN at h1
  unfold INT_MAX at h2
  unfold toInt32
  omega

theorem scanDigits_numeral (n : Nat) (rest : List Char) :
    scanDigits 0 (natDec n ++ '\n' :: rest) = (n, '\n' :: rest) := by
  rw [scanDigits_natDec]
  simp [scanDigits, isdigit]

/-- One `fscanf` reads back what one `fprintf` wrote. -/
theorem fscanf_d_fmt_d (x : Int) (rest : List Char) (h1 : INT_MIN ≤ x) (h2 : x ≤ INT_MAX) :
    fscanf_d (fmt_d x ++ '\n' :: rest) = .item x ('\n' :: rest) := by
  obtain ⟨c, cs, hc, hd, hs, hm, hp⟩ := natDec_head x.natAbs
  have key := scanDigits_numeral x.natAbs rest
  rw [hc] at key
  by_cases hx : x < 0
  · have hv : -((x.natAbs : Nat) : Int) = x := by omega
    have hsp : isspace '-' = false := by decide
    simp only [List.cons_append] at key
    simp only [fmt_d, hx, if_true, hc, List.cons_append, fscanf_d, skipSpace, hsp, if_pos hd,
      key, hv, toInt32_of_range x h1 h2, Bool.false_eq_true, if_false]
  · have hv : ((x.natAbs : Nat) : Int) = x := by omega
    simp only [List.cons_append] at key
    simp only [fmt_d, hx, if_false, hc, List.cons_append, fscanf_d, skipSpace, hs, if_pos hd,
      if_neg hm, if_neg hp, key, hv, toInt32_of_range x h1 h2, Bool.false_eq_true]

theorem fscanf_d_newline (s : List Char) : fscanf_d ('\n' :: s) = fscanf_d s := by
  have hsp : isspace '\n' = true := by decide
  simp [fscanf_d, skipSpace, hsp]

theorem createfromFile_countLoop_newline (fuel : Nat) (s : List Char) (size : Int) :
    createfromFile.countLoop fuel ('\n' :: s) size = createfromFile.countLoop fuel s size := by
  cases fuel with
  | zero => rfl
  | succ fuel => simp only [createfromFile.countLoop, fscanf_d_newline]

theorem createfromFile_fillLoop_newline (arr_ok : Bool) (size : Int) (fuel : Nat)
    (s : List Char) (arr : List Int) :
    createfromFile.fillLoop arr_ok size fuel ('\n' :: s) arr =
      createfromFile.fillLoop arr_ok size fuel s arr := by
  cases fuel with
  | zero => rfl
  | succ fuel => simp only [createfromFile.fillLoop, fscanf_d_newline]

/-- The first pass over a saved file counts its lines. -/
theorem createfromFile_countLoop_saved (l : List Int) (hr : InIntRange l) :
    ∀ (fuel : Nat) (size : Int), l.length < fuel → size + l.length ≤ INT_MAX →
      createfromFile.countLoop fuel (savetoFile.loop l) size = .ok (size + l.length) := by
  induction l with
  | nil =>
    intro fuel size hf _
    cases fuel with
    | zero => simp at hf
    | succ fuel => simp [createfromFile.countLoop, savetoFile.loop, fscanf_d, skipSpace]
  | cons x xs ih =>
    intro fuel size hf hs
    cases fuel with
    | zero => simp at hf
    | succ fuel =>
      have hx := hr x (List.mem_cons_self x xs)
      have hr2 : InIntRange xs := fun y hy => hr y (List.mem_cons_of_mem x hy)
      simp only [List.length_cons, Nat.cast_add, Nat.cast_one] at hs hf
      have hne : size ≠ INT_MAX := by
        intro h; rw [h] at hs; omega
      simp only [createfromFile.countLoop, savetoFile.loop, fscanf_d_fmt_d x _ hx.1 hx.2,
        if_neg hne, createfromFile_countLoop_newline]
      rw [ih hr2 fuel (size + 1) (by omega) (by omega)]
      simp only [List.length_cons, Nat.cast_add, Nat.cast_one]
      congr 1
      omega

/-- The second pass over a saved file writes its values into the array in order. -/
theorem createfromFile_fillLoop_saved (size : Int) (l : List Int) (hr : InIntRange l) :
    ∀ (fuel : Nat) (arr : List Int), l.length < fuel → (arr.length : Int) + l.length ≤ size →
      createfromFile.fillLoop true size fuel (savetoFile.loop l) arr = .ok (arr ++ l) := by
  induction l with
  | nil =>
    intro fuel arr hf _
    cases fuel with
    | zero => simp at hf
    | succ fuel => simp [createfromFile.fillLoop, savetoFile.loop, fscanf_d, skipSpace]
  | cons x xs ih =>
    intro fuel arr hf hs
    cases fuel with
    | zero => simp at hf
    | succ fuel =>
      have hx := hr x (List.mem_cons_self x xs)
      have hr2 : InIntRange xs := fun y hy => hr y (List.mem_cons_of_mem x hy)
      simp only [List.length_cons, Nat.cast_add, Nat.cast_one] at hs hf
      have hlt : ¬ size ≤ (arr.length : Int) := by omega
      simp only [createfromFile.fillLoop, savetoFile.loop, fscanf_d_fmt_d x _ hx.1 hx.2,
        if_neg hlt, createfromFile_fillLoop_newline, Bool.true_eq_false, if_false]
      rw [ih hr2 fuel (arr ++ [x]) (by omega) (by
        simp only [List.length_append, List.length_singleton, Nat.cast_add, Nat.cast_one]; omega)]
      simp

/-- With every allocation granted the loop of `createfromArray` puts the first `k`
cells of the array in front of the list, in the order of the array. -/
theorem createfromArray_loop_ok (arr : List Int) :
    ∀ (k : Nat) (head : List Int), k ≤ arr.length →
      createfromArray.loop (fun _ => true) arr k head = .ok (arr.take k ++ head) := by
  intro k
  induction k with
  | zero => intro head _; simp [createfromArray.loop]
  | succ i ih =>
    intro head hk
    have hi : i < arr.length := hk
    have hp : ∀ v : Int, push true head v = (0, v :: head) := by
      intro v; cases head <;> simp [push]
    simp only [createfromArray.loop, List.getElem?_eq_getElem hi, hp, ne_eq, not_true_eq_false,
      if_false]
    rw [ih _ (Nat.le_of_lt hi)]
    have ht : arr.take (i + 1) = arr.take i ++ [arr[i]] := by
      rw [List.take_succ, List.getElem?_eq_getElem hi]; rfl
    rw [ht, List.append_assoc]; rfl

/-- Counting the lines of a file of `n` zeros leaves the range of `int` as soon as
`size + n` does, whatever the fuel. -/
theorem createfromFile_countLoop_overflow (n : Nat) :
    ∀ (fuel : Nat) (size : Int), size ≤ INT_MAX → INT_MAX < size + n →
      ∃ f, createfromFile.countLoop fuel (savetoFile.loop (List.replicate n 0)) size = .error f := by
  induction n with
  | zero =>
    intro fuel size h1 h2
    simp only [Nat.cast_zero, add_zero] at h2
    omega
  | succ n ih =>
    intro fuel size h1 h2
    cases fuel with
    | zero => exact ⟨.noFuel, rfl⟩
    | succ fuel =>
      have h0 : INT_MIN ≤ (0 : Int) ∧ (0 : Int) ≤ INT_MAX := by
        unfold INT_MIN INT_MAX; omega
      simp only [List.replicate_succ, createfromFile.countLoop, savetoFile.loop,
        fscanf_d_fmt_d 0 _ h0.1 h0.2, createfromFile_countLoop_newline]
      by_cases hs : size = INT_MAX
      · exact ⟨.intOverflow, by rw [if_pos hs]⟩
      · rw [if_neg hs]
        apply ih fuel (size + 1)
        · omega
        · simp only [Nat.cast_add, Nat.cast_one] at h2; omega

/-- Claim C7, as amended.  For a list with at least one node, at most `INT_MAX`
nodes, and values of `int`, `savetoFile` writes each value in decimal on a line
of its own, head to tail, and `createfromFile`, reading that text with the file
open and every allocation granted, returns the same values in the same order
whenever its loops are given more steps than the list has nodes. -/
theorem save_load_roundtrip (d : Int) (nxt : List Int)
    (hr : InIntRange (d :: nxt)) (hlen : ((d :: nxt).length : Int) ≤ INT_MAX) :
    ∃ text, savetoFile true (d :: nxt) = some text ∧
      text = ((d :: nxt).map (fun x => fmt_d x ++ ['\n'])).flatten ∧
      ∀ fuel, (d :: nxt).length < fuel →
        createfromFile true text true (fun _ => true) fuel = .ok (d :: nxt) := by
  refine ⟨savetoFile.loop (d :: nxt), rfl, ?_, ?_⟩
  · generalize d :: nxt = l
    induction l with
    | nil => rfl
    | cons x xs ih => simp [savetoFile.loop, ih]
  · intro fuel hf
    have hc := createfromFile_countLoop_saved (d :: nxt) hr fuel 0 hf (by simpa using hlen)
    have hfill := createfromFile_fillLoop_saved (0 + ((d :: nxt).length : Int)) (d :: nxt) hr fuel []
      hf (by simp)
    rw [zero_add] at hc hfill
    have hmin : ((d :: nxt).length : Int) ≠ INT_MIN := by
      unfold INT_MIN; omega
    simp only [createfromFile, hc, hfill, Bool.true_eq_false, if_false, List.nil_append,
      createfromArray, if_neg hmin, Int.toNat_ofNat]
    rw [createfromArray_loop_ok _ _ _ (Nat.le_refl _)]
    simp

/-- Claim C7 at `[7, 2, 9]`. -/
theorem save_load_roundtrip_witness :
    InIntRange [7, 2, 9] ∧ ((([7, 2, 9] : List Int).length : Int) ≤ INT_MAX) ∧
    ∃ text, savetoFile true [7, 2, 9] = some text ∧
      text = (([7, 2, 9] : List Int).map (fun x => fmt_d x ++ ['\n'])).flatten ∧
      ∀ fuel, ([7, 2, 9] : List Int).length < fuel →
        createfromFile true text true (fun _ => true) fuel = .ok [7, 2, 9] :=
  have hr : InIntRange [7, 2, 9] := by
    intro x hx
    simp only [List.mem_cons, List.mem_singleton, List.not_mem_nil, or_false] at hx
    unfold INT_MIN INT_MAX
    omega
  have hlen : ((([7, 2, 9] : List Int).length : Int) ≤ INT_MAX) := by decide
  ⟨hr, hlen, save_load_roundtrip 7 [2, 9] hr hlen⟩

/-- A list of `n` zeros with `n` above `INT_MAX`: the text is written, and reading it
back never yields the list, whatever the fuel and the allocator. -/
theorem save_load_long (n : Nat) (hn : INT_MAX < (n : Int)) :
    InIntRange (List.replicate n 0) ∧
    List.replicate n (0 : Int) ≠ [] ∧
    savetoFile true (List.replicate n 0) = some (savetoFile.loop (List.replicate n 0)) ∧
    ∀ (arr_ok : Bool) (malloc_ok : Nat → Bool) (fuel : Nat),
      createfromFile true (savetoFile.loop (List.replicate n 0)) arr_ok malloc_ok fuel ≠
        .ok (List.replicate n 0) := by
  have hpos : n ≠ 0 := by
    intro h; subst h; unfold INT_MAX at hn; omega
  obtain ⟨m, rfl⟩ := Nat.exists_eq_succ_of_ne_zero hpos
  refine ⟨?_, ?_, ?_, ?_⟩
  · intro x hx
    rw [List.eq_of_mem_replicate hx]
    unfold INT_MIN INT_MAX
    omega
  · simp [List.replicate_succ]
  · simp [List.replicate_succ, savetoFile]
  · intro arr_ok malloc_ok fuel
    obtain ⟨f, hf⟩ := createfromFile_countLoop_overflow (m + 1) fuel 0
      (by unfold INT_MAX; omega) (by simpa using hn)
    simp [createfromFile, hf]

/-- Claim C7 as stated fails on a list of `2 ^ 31` zeros: the text is written, and
reading it back never yields the list, since the line count `size++` leaves the
range of `int`. -/
theorem save_load_overflow :
    InIntRange (List.replicate 2147483648 0) ∧
    List.replicate 2147483648 (0 : Int) ≠ [] ∧
    savetoFile true (List.replicate 2147483648 0) =
      some (savetoFile.loop (List.replicate 2147483648 0)) ∧
    ∀ (arr_ok : Bool) (malloc_ok : Nat → Bool) (fuel : Nat),
      createfromFile true (savetoFile.loop (List.replicate 2147483648 0)) arr_ok malloc_ok fuel ≠
        .ok (List.replicate 2147483648 0) :=
  save_load_long 2147483648 (by unfold INT_MAX; omega)

/-! ## Tail removal and construction from an array -/

theorem removeTail_walk_eq (d e : Int) (l : List Int) :
    removeTail.walk d e l = (d :: e :: l).dropLast := by
  induction l generalizing d e with
  | nil => rfl
  | cons f nxt ih => simp [removeTail.walk, ih]

/-- Claim C11.  On a list with at least one node `removeTail` returns 0 and leaves
the list without its last node, the other nodes as they were; a list of one
node becomes empty; on the empty list it returns 1 and the list stays empty. -/
theorem removeTail_contract (d x : Int) (nxt l : List Int) :
    removeTail (d :: nxt) = (0, (d :: nxt).dropLast) ∧
    removeTail (l ++ [x]) = (0, l) ∧
    removeTail [x] = (0, []) ∧
    removeTail [] = (1, []) := by
  have h : ∀ (d : Int) (nxt : List Int), removeTail (d :: nxt) = (0, (d :: nxt).dropLast) := by
    intro d nxt
    cases nxt with
    | nil => rfl
    | cons e nxt => simp [removeTail, removeTail_walk_eq]
  refine ⟨h d nxt, ?_, rfl, rfl⟩
  cases l with
  | nil => rfl
  | cons a l => rw [List.cons_append, h, ← List.cons_append, List.dropLast_concat]

/-- Claim C14.  With every allocation granted `createfromArray` on an array of `n`
cells returns a list of `n` nodes whose node `i` holds cell `i` of the array;
for `n = 0` it returns the empty list. -/
theorem createfromArray_contract (arr : List Int) :
    (∃ r, createfromArray (fun _ => true) arr (arr.length : Int) = .ok r ∧
      r.length = arr.length ∧ ∀ i : Nat, r[i]? = arr[i]?) ∧
    createfromArray (fun _ => true) arr 0 = .ok [] ∧
    createfromArray (fun _ => true) [5, 3, 8, 1] 4 = .ok [5, 3, 8, 1] := by
  have hmin : ∀ n : Nat, (n : Int) ≠ INT_MIN := by
    intro n; unfold INT_MIN; omega
  refine ⟨⟨arr, ?_, rfl, fun _ => rfl⟩, ?_, by decide⟩
  · rw [createfromArray, if_neg (hmin _), Int.toNat_ofNat,
      createfromArray_loop_ok _ _ _ (Nat.le_refl _)]
    simp
  · rfl

/-! ## Calls on the empty list and failed allocations -/

/-- Claim C15.  What the code does where the claim expects a report and an
unchanged list: on the empty list `deleteMatch` goes on after its message and
reads `ptr->data` with `ptr == NULL`, for every target value. -/
theorem deleteMatch_empty (value : Int) : deleteMatch [] value = .error .nullDeref :=
  rfl

/-- Claim C16.  What the code does where the claim expects no access to a missing
node: on the empty list `deleteDuplicates` reads `(*head)->next` with
`*head == NULL`; a list of one node is left as it is. -/
theorem deleteDuplicates_empty (d : Int) :
    deleteDuplicates [] = .error .nullDeref ∧ deleteDuplicates [d] = .ok [d] :=
  ⟨rfl, rfl⟩

/-- Claim C17.  What the code does where the claim expects a non-zero result: on
the empty list an `enqueue` whose allocation fails returns 0, while `push`
returns 1 there; the list stays empty.  On a list with a node `enqueue` returns
1 and leaves the list as it was. -/
theorem enqueue_alloc_failure (d v : Int) (nxt : List Int) :
    enqueue false [] v = (0, []) ∧
    push false [] v = (1, []) ∧
    enqueue false (d :: nxt) v = (1, d :: nxt) :=
  ⟨rfl, rfl, rfl⟩

/-! ## Counting -/

theorem length_loop_eq (l : List Int) :
    ∀ i : Int, i ≤ INT_MAX →
      length.loop l i =
        if i + (l.length : Int) ≤ INT_MAX then .ok (i + (l.length : Int))
        else .error .intOverflow := by
  induction l with
  | nil => intro i hi; simp [length.loop, hi]
  | cons d nxt ih =>
    intro i hi
    by_cases h : i = INT_MAX
    · have hgt : ¬ (i + ((d :: nxt).length : Int) ≤ INT_MAX) := by
        simp only [List.length_cons, Nat.cast_add, Nat.cast_one]; omega
      simp only [length.loop, if_pos h, if_neg hgt]
    · have hi1 : i + 1 ≤ INT_MAX := by omega
      have e : i + 1 + (nxt.length : Int) = i + ((d :: nxt).length : Int) := by
        simp only [List.length_cons, Nat.cast_add, Nat.cast_one]; omega
      simp only [length.loop, if_neg h, ih (i + 1) hi1, e]

theorem count_loop_eq (value : Int) (l : List Int) :
    ∀ i : Int, i ≤ INT_MAX →
      count.loop value l i =
        if i + (l.count value : Int) ≤ INT_MAX then .ok (i + (l.count value : Int))
        else .error .intOverflow := by
  induction l with
  | nil => intro i hi; simp [count.loop, hi]
  | cons d nxt ih =>
    intro i hi
    by_cases hd : d = value
    · subst hd
      by_cases h : i = INT_MAX
      · have hgt : ¬ (i + ((d :: nxt).count d : Int) ≤ INT_MAX) := by
          simp only [List.count_cons_self, Nat.cast_add, Nat.cast_one]; omega
        simp only [count.loop, if_pos h, if_neg hgt, if_true]
      · have hi1 : i + 1 ≤ INT_MAX := by omega
        have e : i + 1 + (nxt.count d : Int) = i + ((d :: nxt).count d : Int) := by
          simp only [List.count_cons_self, Nat.cast_add, Nat.cast_one]; omega
        simp only [count.loop, if_neg h, ih (i + 1) hi1, e, if_true]
    · have e : (d :: nxt).count value = nxt.count value := List.count_cons_of_ne (fun c => hd c.symm) nxt
      simp only [count.loop, if_neg hd, ih i hi, e]

theorem length_eq (l : List Int) :
    length l =
      if (l.length : Int) ≤ INT_MAX then .ok (l.length : Int) else .error .intOverflow := by
  cases l with
  | nil => simp [length, INT_MAX]
  | cons d nxt =>
    have h0 : (0 : Int) ≤ INT_MAX := by unfold INT_MAX; omega
    simp only [length, length_loop_eq _ 0 h0, zero_add]

theorem count_cons_eq (d value : Int) (nxt : List Int) :
    count (d :: nxt) value =
      if ((d :: nxt).count value : Int) ≤ INT_MAX then .ok ((d :: nxt).count value : Int)
      else .error .intOverflow := by
  have h0 : (0 : Int) ≤ INT_MAX := by unfold INT_MAX; omega
  simp only [count, count_loop_eq _ _ 0 h0, zero_add]

theorem recursive_length_eq (l : List Int) :
    recursive_length l =
      if (l.length : Int) ≤ INT_MAX then .ok (l.length : Int) else .error .intOverflow := by
  induction l with
  | nil => simp [recursive_length, INT_MAX]
  | cons d nxt ih =>
    rw [recursive_length, ih]
    simp only [List.length_cons, Nat.cast_add, Nat.cast_one]
    by_cases h : (nxt.length : Int) ≤ INT_MAX
    · by_cases h2 : (nxt.length : Int) = INT_MAX
      · have : ¬ ((nxt.length : Int) + 1 ≤ INT_MAX) := by omega
        simp only [if_pos h, if_pos h2, if_neg this]
      · have : (nxt.length : Int) + 1 ≤ INT_MAX := by omega
        simp only [if_pos h, if_neg h2, if_pos this, add_comm]
    · have : ¬ ((nxt.length : Int) + 1 ≤ INT_MAX) := by omega
      simp only [if_neg h, if_neg this]

theorem recursive_count_eq (value : Int) (l : List Int) :
    recursive_count l value =
      if (l.count value : Int) ≤ INT_MAX then .ok (l.count value : Int)
      else .error .intOverflow := by
  induction l with
  | nil => simp [recursive_count, INT_MAX]
  | cons d nxt ih =>
    by_cases hd : d = value
    · subst hd
      rw [recursive_count, ih]
      simp only [List.count_cons_self, Nat.cast_add, Nat.cast_one, if_true]
      by_cases h : (nxt.count d : Int) ≤ INT_MAX
      · by_cases h2 : (nxt.count d : Int) = INT_MAX
        · have : ¬ ((nxt.count d : Int) + 1 ≤ INT_MAX) := by omega
          simp only [if_pos h, if_pos h2, if_neg this]
        · have : (nxt.count d : Int) + 1 ≤ INT_MAX := by omega
          simp only [if_pos h, if_neg h2, if_pos this, add_comm]
      · have : ¬ ((nxt.count d : Int) + 1 ≤ INT_MAX) := by omega
        simp only [if_neg h, if_neg this]
    · have e : (d :: nxt).count value = nxt.count value := List.count_cons_of_ne (fun c => hd c.symm) nxt
      rw [recursive_count, if_neg hd, ih, e]

/-- Claim C13, as amended.  On a list with at least one node in which `v` occurs at
most `INT_MAX` times, `count` returns the number of nodes that hold `v` (0 when
`v` does not occur, as for 9 in `[1, 2, 3]`); on the empty list `count` returns
-1, where `length` returns 0. -/
theorem count_contract (d v : Int) (nxt : List Int)
    (h : ((d :: nxt).count v : Int) ≤ INT_MAX) :
    count (d :: nxt) v = .ok ((d :: nxt).count v : Int) ∧
    (v ∉ d :: nxt → count (d :: nxt) v = .ok 0) ∧
    count [1, 2, 3] 9 = .ok 0 ∧
    count [] v = .ok (-1) ∧
    length [] = .ok 0 := by
  have hc : count (d :: nxt) v = .ok ((d :: nxt).count v : Int) := by
    rw [count_cons_eq, if_pos h]
  refine ⟨hc, ?_, by decide, rfl, rfl⟩
  intro hv
  rw [hc, List.count_eq_zero_of_not_mem hv]
  rfl

/-- Claim C13 at the list `[1, 2, 2]` and the value 2. -/
theorem count_contract_witness :
    ((([1, 2, 2] : List Int).count 2 : Nat) : Int) ≤ INT_MAX ∧ count [1, 2, 2] 2 = .ok 2 :=
  have h : ((([1, 2, 2] : List Int).count 2 : Nat) : Int) ≤ INT_MAX := by decide
  ⟨h, (count_contract 1 2 [2, 2] h).1⟩

/-- On a list of `n` zeros with `n` above `INT_MAX` the counter of `count` leaves
the range of `int`. -/
theorem count_long (n : Nat) (hn : INT_MAX < (n : Int)) :
    List.replicate n (0 : Int) ≠ [] ∧
    count (List.replicate n 0) 0 = .error .intOverflow := by
  have hpos : n ≠ 0 := by
    intro h; subst h; unfold INT_MAX at hn; omega
  obtain ⟨m, rfl⟩ := Nat.exists_eq_succ_of_ne_zero hpos
  refine ⟨by simp [List.replicate_succ], ?_⟩
  have hgt : ¬ (((List.replicate m (0 : Int)).count 0 + 1 : Nat) : Int) ≤ INT_MAX := by
    rw [List.count_replicate_self]; omega
  rw [List.replicate_succ, count_cons_eq, List.count_cons_self, if_neg hgt]

/-- Claim C13 as stated fails on a list of `2 ^ 31` zeros: the number of nodes
holding 0 is `2 ^ 31`, and `count` does not return it, its `int` counter being
taken beyond `INT_MAX`. -/
theorem count_overflow :
    List.replicate 2147483648 (0 : Int) ≠ [] ∧
    count (List.replicate 2147483648 0) 0 = .error .intOverflow :=
  count_long 2147483648 (by unfold INT_MAX; omega)

/-! ## Recursive and earlier variants -/

theorem recursive_print_eq (d : Int) (nxt : List Int) :
    recursive_print (d :: nxt) = printList (d :: nxt) := by
  have h : ∀ l : List Int, recursive_print l = printList.loop l ++ ['\n'] := by
    intro l
    induction l with
    | nil => rfl
    | cons x xs ih => simp [recursive_print, printList.loop, ih]
  rw [h]; rfl

theorem length_old_loop_eq (l : List Int) (i : Int) :
    length_old.loop l i = length.loop l i := by
  induction l generalizing i with
  | nil => rfl
  | cons d nxt ih => simp only [length_old.loop, length.loop, ih]

theorem count_old_loop_eq (value : Int) (l : List Int) (i : Int) :
    count_old.loop value l i = count.loop value l i := by
  induction l generalizing i with
  | nil => rfl
  | cons d nxt ih => simp only [count_old.loop, count.loop, ih]

/-- Claim C19.  The recursive and the earlier variants agree with the iterative
functions: `recursive_length` and `length_old` with `length` on every list;
`recursive_count` and `count_old` with `count`, and the text of
`recursive_print` with that of `printList`, on every list with a node.  On a
list of at most `INT_MAX` nodes the common result of the length functions is
the number of nodes. -/
theorem variants_agree (l : List Int) (d v : Int) (nxt : List Int) :
    recursive_length l = length l ∧
    length_old l = length l ∧
    recursive_count (d :: nxt) v = count (d :: nxt) v ∧
    count_old (d :: nxt) v = count (d :: nxt) v ∧
    recursive_print (d :: nxt) = printList (d :: nxt) ∧
    ((l.length : Int) ≤ INT_MAX → length l = .ok (l.length : Int)) := by
  refine ⟨?_, ?_, ?_, ?_, recursive_print_eq d nxt, ?_⟩
  · rw [recursive_length_eq, length_eq]
  · cases l with
    | nil => rfl
    | cons x xs => simp only [length_old, length, length_old_loop_eq]
  · rw [recursive_count_eq, count_cons_eq]
  · simp only [count_old, count, count_old_loop_eq]
  · intro h; rw [length_eq, if_pos h]

/-- Claim C19 at the list `[4, 4, 7]`. -/
theorem variants_agree_witness :
    ((([4, 4, 7] : List Int).length : Nat) : Int) ≤ INT_MAX ∧ length [4, 4, 7] = .ok 3 :=
  have h : ((([4, 4, 7] : List Int).length : Nat) : Int) ≤ INT_MAX := by decide
  ⟨h, (variants_agree [4, 4, 7] 0 0 []).2.2.2.2.2 h⟩

/-! ## Printing -/

/-- A decimal numeral is made of digits. -/
theorem natDec_digits (n : Nat) : ∀ c ∈ natDec n, isdigit c = true := by
  induction n using Nat.strong_induction_on with
  | _ n ih =>
    by_cases h : n < 10
    · intro c hc
      rw [natDec_lt n h, List.mem_singleton] at hc
      rw [hc]; exact (digitChar_facts n h).1
    · intro c hc
      rw [natDec_ge n h, List.mem_append, List.mem_singleton] at hc
      rcases hc with hc | hc
      · exact ih (n / 10) (by omega) c hc
      · rw [hc]; exact (digitChar_facts (n % 10) (Nat.mod_lt _ (by omega))).1

theorem printList_loop_no_newline (l : List Int) : '\n' ∉ printList.loop l := by
  induction l with
  | nil => simp [printList.loop]
  | cons d nxt ih =>
    have hn : '\n' ∉ natDec d.natAbs := fun hc => by
      have := natDec_digits _ _ hc
      revert this; decide
    have hf : '\n' ∉ fmt_d d := by
      unfold fmt_d
      split
      · simp only [List.mem_cons, not_or]
        exact ⟨by decide, hn⟩
      · exact hn
    simp only [printList.loop, List.mem_cons, List.mem_append, not_or]
    exact ⟨⟨by decide, hf⟩, ih⟩

/-- Claim C20.  On a list with at least one node `printList` writes, head to tail,
a hyphen and the decimal numeral of each value, then one newline, and no other
newline; `[5, 3, 8, 1]` is written as `-5-3-8-1` and a newline.  On the empty
list it writes `Empty list`. -/
theorem printList_contract (d : Int) (nxt : List Int) :
    printList (d :: nxt) =
      ((d :: nxt).map (fun x => '-' :: fmt_d x)).flatten ++ ['\n'] ∧
    '\n' ∉ ((d :: nxt).map (fun x => '-' :: fmt_d x)).flatten ∧
    printList [5, 3, 8, 1] = "-5-3-8-1\n".toList ∧
    printList [] = "Empty list".toList ∧
    printList [] ≠ printList (d :: nxt) := by
  have h : ∀ l : List Int, printList.loop l = (l.map (fun x => '-' :: fmt_d x)).flatten := by
    intro l
    induction l with
    | nil => rfl
    | cons x xs ih => simp [printList.loop, ih]
  refine ⟨?_, ?_, ?_, rfl, ?_⟩
  · rw [← h]; rfl
  · rw [← h]; exact printList_loop_no_newline _
  · simp [printList, printList.loop, fmt_d, natDec, digitChar]
  · intro hc
    have h1 : printList (d :: nxt) = '-' :: (fmt_d d ++ printList.loop nxt ++ ['\n']) := by
      simp [printList, printList.loop]
    rw [h1] at hc
    exact absurd (List.cons.inj hc).1 (by decide)

/-! ## Length after a sequence of calls -/

theorem push_granted (l : List Int) (v : Int) : push true l v = (0, v :: l) := by
  cases l <;> rfl

theorem enqueue_granted (l : List Int) (v : Int) : enqueue true l v = (0, l ++ [v]) := by
  cases l with
  | nil => rfl
  | cons d nxt => simp [enqueue, enqueue_walk_eq]

theorem removeTail_cons (d : Int) (nxt : List Int) :
    removeTail (d :: nxt) = (0, (d :: nxt).dropLast) := by
  cases nxt with
  | nil => rfl
  | cons e nxt => simp [removeTail, removeTail_walk_eq]

/-- Apart from an `enqueue` that meets the empty list with a failing allocation,
every call keeps the number of nodes equal to the insertions that returned 0
minus the removals that returned 0. -/
theorem step_net_length (t : Tally) (op : Op)
    (hop : ¬ (t.head = [] ∧ ∃ v, op = Op.enqueue false v))
    (h : (t.head.length : Int) = t.inserted - t.removed) :
    ((t.step op).head.length : Int) = (t.step op).inserted - (t.step op).removed := by
  obtain ⟨head, ins, rem⟩ := t
  simp only at h hop
  cases op with
  | push ok v =>
    cases ok
    · simpa [Tally.step, SLList.push] using h
    · simp only [Tally.step, push_granted head v, List.length_cons, if_true, Nat.cast_add,
        Nat.cast_one]
      omega
  | enqueue ok v =>
    cases ok
    · cases head with
      | nil => exact absurd ⟨rfl, v, rfl⟩ hop
      | cons d nxt => simpa [Tally.step, SLList.enqueue] using h
    · simp only [Tally.step, enqueue_granted head v, List.length_append,
        List.length_singleton, if_true, Nat.cast_add, Nat.cast_one]
      omega
  | pop =>
    cases head with
    | nil => simpa [Tally.step, SLList.pop] using h
    | cons d nxt =>
      simp only [Tally.step, SLList.pop, if_true, List.length_cons, Nat.cast_add,
        Nat.cast_one] at h ⊢
      omega
  | removeTail =>
    cases head with
    | nil => simpa [Tally.step, SLList.removeTail] using h
    | cons d nxt =>
      simp only [Tally.step, removeTail_cons d nxt, if_true, List.length_dropLast,
        List.length_cons, Nat.cast_add, Nat.cast_one, Nat.add_sub_cancel] at h ⊢
      omega

/-- The same for a sequence of calls started in any state. -/
theorem foldl_net_length (ops : List Op) :
    ∀ t : Tally, NoFailedEnqueueOnEmpty t ops →
      (t.head.length : Int) = t.inserted - t.removed →
      (((ops.foldl Tally.step t).head.length : Nat) : Int) =
        (ops.foldl Tally.step t).inserted - (ops.foldl Tally.step t).removed := by
  induction ops with
  | nil => intro t _ h; exact h
  | cons op ops ih =>
    intro t hs h
    exact ih (t.step op) hs.2 (step_net_length t op hs.1 h)

/-- For a sequence of calls started on the empty list in which no `enqueue` meets
the empty list with a failing allocation, and which leaves at most `INT_MAX`
nodes, `length` returns the insertions that returned 0 minus the removals that
returned 0. -/
theorem length_runOps (ops : List Op)
    (hs : NoFailedEnqueueOnEmpty { head := [], inserted := 0, removed := 0 } ops)
    (hlen : (((runOps ops).head.length : Nat) : Int) ≤ INT_MAX) :
    length (runOps ops).head = .ok ((runOps ops).inserted - (runOps ops).removed) := by
  have h := foldl_net_length ops { head := [], inserted := 0, removed := 0 } hs (by simp)
  rw [length_eq, if_pos hlen]
  exact congrArg Except.ok h

/-- Claim C12.  What the code does where the claim expects `length` to return 1:
started on the empty list, one `enqueue` whose allocation fails returns 0, so
one insertion returned success and no removal did, and `length` returns 0. -/
theorem length_after_failed_enqueue :
    (runOps [Op.enqueue false 5]).inserted = 1 ∧
    (runOps [Op.enqueue false 5]).removed = 0 ∧
    (runOps [Op.enqueue false 5]).head = [] ∧
    length (runOps [Op.enqueue false 5]).head = .ok 0 := by
  decide

/-! ## Loading a file with a token that is no integer -/

/-- In front of `abc` the first loop of `createfromFile` makes no progress:
`fscanf` returns 0 and leaves the stream as it was, whatever the fuel. -/
theorem createfromFile_countLoop_stall (fuel : Nat) :
    ∀ size : Int,
      createfromFile.countLoop fuel "abc\n2\n".toList size = .error .noFuel := by
  have hscan : fscanf_d "abc\n2\n".toList = .noMatch "abc\n2\n".toList := by decide
  induction fuel with
  | zero => intro size; rfl
  | succ fuel ih =>
    intro size
    rw [createfromFile.countLoop, hscan]
    exact ih size

/-- Claim C18.  What the code does where the claim expects the list `[1, 2]`: on a
file with the lines `1`, `abc`, `2` the load never returns, whatever the number
of steps it is given, since `fscanf` leaves `abc` in the stream and the loop
calls it again. -/
theorem createfromFile_malformed (arr_ok : Bool) (malloc_ok : Nat → Bool) (fuel : Nat) :
    createfromFile true "1\nabc\n2\n".toList arr_ok malloc_ok fuel = .error .noFuel := by
  have hscan : fscanf_d "1\nabc\n2\n".toList = .item 1 "\nabc\n2\n".toList := by decide
  have hne : (0 : Int) ≠ INT_MAX := by decide
  have hcount : createfromFile.countLoop fuel "1\nabc\n2\n".toList 0 = .error .noFuel := by
    cases fuel with
    | zero => rfl
    | succ fuel =>
      rw [createfromFile.countLoop, hscan]
      simp only [if_neg hne]
      exact (createfromFile_countLoop_newline fuel _ _).trans
        (createfromFile_countLoop_stall fuel _)
  rw [createfromFile, hcount]
  rfl

/-! ## The two halves of `splitList` -/

/-- Claim C21.  On a list of `n` nodes, `n` at least 2, `splitList` returns as left
half the first `(n + 1) / 2` nodes (half of `n`, rounded up) and as right half
the other `n / 2` nodes: left followed by right is the list, both halves have a
node and are shorter than the list; four nodes split 2 and 2, five nodes 3 and 2.
What `*left` and `*right` held on entry plays no part. -/
theorem splitList_contract (d e : Int) (nxt left0 right0 : List Int) :
    ∃ left right, splitList (d :: e :: nxt) left0 right0 = .ok (left, right) ∧
      left = (d :: e :: nxt).take (((d :: e :: nxt).length + 1) / 2) ∧
      right = (d :: e :: nxt).drop (((d :: e :: nxt).length + 1) / 2) ∧
      left.length = ((d :: e :: nxt).length + 1) / 2 ∧
      right.length = (d :: e :: nxt).length / 2 ∧
      left ++ right = d :: e :: nxt ∧
      left ≠ [] ∧ right ≠ [] ∧
      left.length < (d :: e :: nxt).length ∧ right.length < (d :: e :: nxt).length ∧
      splitList [1, 2, 3, 4] left0 right0 = .ok ([1, 2], [3, 4]) ∧
      splitList [1, 2, 3, 4, 5] left0 right0 = .ok ([1, 2, 3], [4, 5]) := by
  have hk : ((d :: e :: nxt).length + 1) / 2 = (nxt.length + 1) / 2 + 1 := by
    simp only [List.length_cons]; omega
  have hl : ((d :: e :: nxt).take (((d :: e :: nxt).length + 1) / 2)).length =
      ((d :: e :: nxt).length + 1) / 2 := by
    rw [List.length_take]; simp only [List.length_cons]; omega
  have hr : ((d :: e :: nxt).drop (((d :: e :: nxt).length + 1) / 2)).length =
      (d :: e :: nxt).length / 2 := by
    rw [List.length_drop]; simp only [List.length_cons]; omega
  refine ⟨_, _, ?_, rfl, rfl, hl, hr, List.take_append_drop _ _, ?_, ?_, ?_, ?_, rfl, rfl⟩
  · rw [splitList_eq, hk]
  · intro h
    have := congrArg List.length h
    rw [hl] at this
    simp only [List.length_cons, List.length_nil] at this
    omega
  · intro h
    have := congrArg List.length h
    rw [hr] at this
    simp only [List.length_cons, List.length_nil] at this
    omega
  · rw [hl]; simp only [List.length_cons]; omega
  · rw [hr]; simp only [List.length_cons]; omega

/-! ## The merge step -/

theorem merge_cons_cons_le (l r : Int) (ls rs : List Int) (h : l ≤ r) :
    merge (l :: ls) (r :: rs) = l :: merge ls (r :: rs) := by
  rw [merge, if_pos h, merge_eq_loop]

theorem merge_cons_cons_gt (l r : Int) (ls rs : List Int) (h : ¬ l ≤ r) :
    merge (l :: ls) (r :: rs) = r :: merge (l :: ls) rs := by
  rw [merge, if_neg h, merge_eq_loop]

theorem merge_loop_sublist_left (left right : List Int) :
    left.Sublist (merge.loop left right) := by
  induction left, right using merge.loop.induct with
  | case1 l ls r rs h ih =>
    rw [merge.loop]; simp only [h, if_true]
    exact ih.cons₂ l
  | case2 l ls r rs h ih =>
    rw [merge.loop]; simp only [h, if_false]
    exact ih.cons r
  | case3 right => simp [merge.loop]
  | case4 l ls => simp [merge.loop]

theorem merge_loop_sublist_right (left right : List Int) :
    right.Sublist (merge.loop left right) := by
  induction left, right using merge.loop.induct with
  | case1 l ls r rs h ih =>
    rw [merge.loop]; simp only [h, if_true]
    exact ih.cons l
  | case2 l ls r rs h ih =>
    rw [merge.loop]; simp only [h, if_false]
    exact ih.cons₂ r
  | case3 right => simp [merge.loop]
  | case4 l ls => simp [merge.loop]

/-- The merge of the source is the merge of the library taken with `≤`. -/
theorem merge_loop_eq_list_merge (left right : List Int) :
    merge.loop left right = List.merge left right (fun a b => decide (a ≤ b)) := by
  induction left, right using merge.loop.induct with
  | case1 l ls r rs h ih =>
    rw [merge.loop, List.cons_merge_cons]; simp only [h, if_true, decide_True, ih]
  | case2 l ls r rs h ih =>
    rw [merge.loop, List.cons_merge_cons]
    simp only [h, if_false, decide_False, ih, Bool.false_eq_true]
  | case3 right => simp [merge.loop]
  | case4 l ls => simp [merge.loop]

/-- Claim C22.  For lists `left` and `right` in non-decreasing order `merge` returns
a list in non-decreasing order that is a permutation of `left ++ right`.  It is
stable: when the front of `left` is at most the front of `right`, a tie
included, the front of `left` comes out first, otherwise the front of `right`;
so each input is a subsequence of the result.  When one input is empty the
result is the other. -/
theorem merge_contract (left right : List Int)
    (hl : left.Sorted (· ≤ ·)) (hr : right.Sorted (· ≤ ·)) :
    (merge left right).Sorted (· ≤ ·) ∧
    (merge left right).Perm (left ++ right) ∧
    (∀ l r ls rs, l ≤ r → merge (l :: ls) (r :: rs) = l :: merge ls (r :: rs)) ∧
    (∀ l r ls rs, ¬ l ≤ r → merge (l :: ls) (r :: rs) = r :: merge (l :: ls) rs) ∧
    left.Sublist (merge left right) ∧
    right.Sublist (merge left right) ∧
    merge left right = List.merge left right (fun a b => decide (a ≤ b)) ∧
    merge [] right = right ∧
    merge left [] = left := by
  refine ⟨?_, ?_, merge_cons_cons_le, merge_cons_cons_gt, ?_, ?_, ?_, ?_, ?_⟩
  · rw [merge_eq_loop]; exact merge_loop_sorted left right hl hr
  · rw [merge_eq_loop]; exact merge_loop_perm left right
  · rw [merge_eq_loop]; exact merge_loop_sublist_left left right
  · rw [merge_eq_loop]; exact merge_loop_sublist_right left right
  · rw [merge_eq_loop]; exact merge_loop_eq_list_merge left right
  · cases right <;> rfl
  · cases left <;> rfl

/-- Claim C22 at `[1, 3, 3]` and `[2, 3]`. -/
theorem merge_contract_witness :
    [1, 3, 3].Sorted (fun a b : Int => a ≤ b) ∧ [2, 3].Sorted (fun a b : Int => a ≤ b) ∧
    (merge [1, 3, 3] [2, 3]).Sorted (· ≤ ·) ∧
    (merge [1, 3, 3] [2, 3]).Perm ([1, 3, 3] ++ [2, 3]) :=
  have h1 : [1, 3, 3].Sorted (fun a b : Int => a ≤ b) := by decide
  have h2 : [2, 3].Sorted (fun a b : Int => a ≤ b) := by decide
  ⟨h1, h2, (merge_contract [1, 3, 3] [2, 3] h1 h2).1, (merge_contract [1, 3, 3] [2, 3] h1 h2).2.1⟩

/-! ## Sorting, reversal and duplicate removal together -/

/-- Lists that are permutations of each other have the same sorted result. -/
theorem mergeSort_congr_perm (l₁ l₂ : List Int) (h : l₁.Perm l₂) :
    mergeSort l₁ = mergeSort l₂ := by
  obtain ⟨r₁, h₁, s₁, p₁⟩ := mergeSort_spec l₁.length l₁ (Nat.le_refl _)
  obtain ⟨r₂, h₂, s₂, p₂⟩ := mergeSort_spec l₂.length l₂ (Nat.le_refl _)
  rw [h₁, h₂, List.eq_of_perm_of_sorted ((p₁.trans h).trans p₂.symm) s₁ s₂]

/-- Claim C23.  The result of `mergeSort` depends on the values of the list and how
often each occurs, not on their order: `mergeSort` returns, and lists that are
permutations of each other give the same result; so sorting after `reverseList`
gives what sorting the list itself gives. -/
theorem mergeSort_perm_invariant (l₁ l₂ : List Int) (h : l₁.Perm l₂) :
    (∃ r, mergeSort l₁ = .ok r ∧ mergeSort l₂ = .ok r) ∧
    mergeSort (reverseList l₁) = mergeSort l₁ := by
  obtain ⟨r, hr, _, _⟩ := mergeSort_spec l₁.length l₁ (Nat.le_refl _)
  refine ⟨⟨r, hr, ?_⟩, ?_⟩
  · rw [← mergeSort_congr_perm l₁ l₂ h, hr]
  · apply mergeSort_congr_perm
    rw [reverseList_eq]
    exact List.reverse_perm l₁

/-- Claim C23 at `[3, 1, 2, 1]` and `[1, 1, 2, 3]`. -/
theorem mergeSort_perm_invariant_witness :
    ([3, 1, 2, 1] : List Int).Perm [1, 1, 2, 3] ∧
    (∃ r, mergeSort [3, 1, 2, 1] = .ok r ∧ mergeSort [1, 1, 2, 3] = .ok r) :=
  have h : ([3, 1, 2, 1] : List Int).Perm [1, 1, 2, 3] := by decide
  ⟨h, (mergeSort_perm_invariant [3, 1, 2, 1] [1, 1, 2, 3] h).1⟩

theorem deleteDuplicates_cons (d : Int) (nxt : List Int) :
    deleteDuplicates (d :: nxt) = .ok (deleteDuplicates.outerLoop (d :: nxt)) := by
  cases nxt with
  | nil => simp [deleteDuplicates, deleteDuplicates.outerLoop]
  | cons e nxt => rfl

/-- Claim C24.  On a list with at least one node, `mergeSort` followed by
`deleteDuplicates` returns a strictly increasing list that holds exactly the
values of the input, and `deleteDuplicates` followed by `mergeSort` returns the
same list. -/
theorem sort_dedup_commute (d : Int) (nxt : List Int) :
    ∃ s r u, mergeSort (d :: nxt) = .ok s ∧ deleteDuplicates s = .ok r ∧
      r.Sorted (· < ·) ∧ (∀ x, x ∈ r ↔ x ∈ d :: nxt) ∧
      deleteDuplicates (d :: nxt) = .ok u ∧ mergeSort u = .ok r ∧
      mergeSort [2, 1, 2, 3, 1] = .ok [1, 1, 2, 2, 3] ∧
      deleteDuplicates [1, 1, 2, 2, 3] = .ok [1, 2, 3] ∧
      deleteDuplicates [2, 1, 2, 3, 1] = .ok [2, 1, 3] ∧
      mergeSort [2, 1, 3] = .ok [1, 2, 3] := by
  obtain ⟨s, hs, ss, ps⟩ := mergeSort_spec (d :: nxt).length (d :: nxt) (Nat.le_refl _)
  -- the sorted list has a node, so `deleteDuplicates` may be called on it
  obtain ⟨a, b, rfl⟩ : ∃ a b, s = a :: b := by
    cases s with
    | nil => exact absurd ps.length_eq (by simp)
    | cons a b => exact ⟨a, b, rfl⟩
  obtain ⟨nd₁, sub₁, mem₁⟩ := deleteDuplicates_outerLoop_props _ (a :: b) (Nat.le_refl _)
  obtain ⟨nd₂, _, mem₂⟩ := deleteDuplicates_outerLoop_props _ (d :: nxt) (Nat.le_refl _)
  obtain ⟨w, hw, sw, pw⟩ := mergeSort_spec _ (deleteDuplicates.outerLoop (d :: nxt)) (Nat.le_refl _)
  have sr : (deleteDuplicates.outerLoop (a :: b)).Sorted (· ≤ ·) := ss.sublist sub₁
  have memr : ∀ x, x ∈ deleteDuplicates.outerLoop (a :: b) ↔ x ∈ d :: nxt := fun x =>
    (mem₁ x).trans ps.mem_iff
  have ndw : w.Nodup := pw.nodup_iff.mpr nd₂
  have memw : ∀ x, x ∈ w ↔ x ∈ d :: nxt := fun x => pw.mem_iff.trans (mem₂ x)
  have hperm : w.Perm (deleteDuplicates.outerLoop (a :: b)) :=
    (List.perm_ext_iff_of_nodup ndw nd₁).mpr (fun x => (memw x).trans (memr x).symm)
  have hwr : w = deleteDuplicates.outerLoop (a :: b) := List.eq_of_perm_of_sorted hperm sw sr
  refine ⟨a :: b, deleteDuplicates.outerLoop (a :: b), deleteDuplicates.outerLoop (d :: nxt),
    hs, deleteDuplicates_cons a b, ?_, memr, deleteDuplicates_cons d nxt, by rw [hw, hwr],
    ?_, ?_, ?_, ?_⟩
  · exact (List.Sorted.lt_of_le sr nd₁)
  · simp [mergeSort, splitList, splitList.loop, merge, merge.loop]
  · simp [deleteDuplicates, deleteDuplicates_outerLoop_cons, deleteDuplicates_outerLoop_nil]
  · simp [deleteDuplicates, deleteDuplicates_outerLoop_cons, deleteDuplicates_outerLoop_nil]
  · simp [mergeSort, splitList, splitList.loop, merge, merge.loop]

end SLList
